import Mathlib

/-!
Verification development for the 3-stage LLM-council orchestration engine
(`backend/council.py`, `backend/providers/router.py`, `backend/main.py`).

The model queries themselves are external effects; each call site's outcome
is modelled as an abstract function from the query index to
`Option ModelResponse` (`none` = the provider returned a failure).  Prompt
strings fed to the external service do not influence any verified property
and are therefore not reconstructed; every piece of control flow and data
flow that shapes the results is translated faithfully, including Python's
insertion-ordered dictionaries with key overwrite, `str.split` semantics,
and the regex scans used by the rank parser.

Python floats only appear as means of small 1-based integer ranks; they are
modelled exactly as rationals, with `round(x, 2)` modelled as rounding
`100 * x` to the nearest integer.
-/

namespace LLMCouncil

/-- A successful reply from the model query service: `{"content": ..., "reasoning_details": ...}`.
Only `content` is ever read by the council core. -/
structure ModelResponse where
  content : String
deriving DecidableEq, Repr

/-- Outcome of the i-th query issued by one parallel fan-out
(`asyncio.gather` in `router.py`): `none` models a provider failure. -/
abbrev QueryOutcome := Nat → Option ModelResponse

/-! ### Python dictionaries

`router.py` returns `{model: response for model, response in zip(models, responses)}`.
A Python `dict` is insertion-ordered; assigning to an existing key keeps its
position but replaces its value.  We model dicts as association lists built
with exactly that semantics. -/

/-- One Python dict assignment `d[k] = v`: replace in place if the key is
present, else append at the end. -/
def dictInsert {β : Type} (k : String) (v : β) : List (String × β) → List (String × β)
  | [] => [(k, v)]
  | (k₀, v₀) :: rest =>
    if k₀ = k then (k₀, v) :: rest else (k₀, v₀) :: dictInsert k v rest

/-- Build a Python dict from a sequence of key/value assignments, in order. -/
def buildDict {β : Type} (ps : List (String × β)) : List (String × β) :=
  ps.foldl (fun d p => dictInsert p.1 p.2 d) []

/-- Python dict lookup `d[k]` / membership `k in d` (keys are unique, so the
first hit is the only hit). -/
def listLookup {β : Type} (d : List (String × β)) (k : String) : Option β :=
  match d with
  | [] => none
  | (k₀, v₀) :: rest => if k₀ = k then some v₀ else listLookup rest k

/-- `query_models_parallel_with_messages` (router.py lines 116-139): launch
one query per list index, gather preserving input order, and build the
model-keyed dict.  `resp i` is the settled outcome of the i-th task. -/
def query_models_parallel_with_messages
    (models : List String) (resp : QueryOutcome) :
    List (String × Option ModelResponse) :=
  buildDict (models.enum.map fun p => (p.2, resp p.1))

/-- `{"model": ..., "response": ...}` entries produced by Stage 1. -/
structure Stage1Result where
  model : String
  response : String
deriving DecidableEq, Repr

/-- `stage1_collect_responses` (council.py lines 25-64): empty member list
short-circuits to `[]`; otherwise fan out and keep, in dict order, exactly
the members whose query settled with a response (`response is not None`),
reading `response.get('content', '')`. -/
def stage1_collect_responses (models : List String) (resp : QueryOutcome) :
    List Stage1Result :=
  if models = [] then []
  else
    (query_models_parallel_with_messages models resp).filterMap fun p =>
      match p.2 with
      | none => none
      | some r => some ⟨p.1, r.content⟩

/-- `{"model": ..., "response": ...}` returned by Stage 3. -/
structure Stage3Result where
  model : String
  response : String
deriving DecidableEq, Repr

/-- The fixed chairman-failure sentinel (council.py lines 248-253). -/
def unableToSynthesize (chairman : String) : Stage3Result :=
  ⟨chairman, "Error: Unable to generate final synthesis."⟩

/-- `stage3_synthesize_final` (council.py lines 178-258), result handling:
the assembled chairman prompt is consumed by the abstract query service;
`resp3` is the outcome of `query_model(CHAIRMAN_MODEL, messages)`.  Only a
`None` outcome triggers the sentinel; any successful response is passed
through via `response.get('content', '')`. -/
def stage3_synthesize_final (chairman : String) (resp3 : Option ModelResponse) :
    Stage3Result :=
  match resp3 with
  | none => unableToSynthesize chairman
  | some r => ⟨chairman, r.content⟩

/-! ### Rank-text parsing (`parse_ranking_from_text`, council.py lines 261-292)

The Python implementation splits on the literal `"FINAL RANKING:"`, then runs
`re.findall` with the patterns `\d+\.\s*Response [A-Z]` and `Response [A-Z]`.
We implement the character-level semantics of those operations: `str.split`
with a non-empty separator, and left-to-right non-overlapping regex scanning
(on a failed match attempt the scan advances one character).  Recursions that
jump over a matched chunk are written with an explicit fuel argument equal to
the input length, so all definitions reduce by kernel computation; fuel
adequacy is proved below. -/

/-- Whether `m` occurs as a contiguous substring of `cs`. -/
def occursIn (m : List Char) : List Char → Bool
  | [] => m.isEmpty
  | c :: rest => m.isPrefixOf (c :: rest) || occursIn m rest

/-- Fueled core of Python `str.split(sep)` for a non-empty `sep`:
scan left to right, cutting at each non-overlapping occurrence. -/
def splitAux (m : List Char) : Nat → List Char → List Char → List (List Char)
  | _, [], acc => [acc.reverse]
  | 0, _ :: _, acc => [acc.reverse]
  | fuel + 1, c :: rest, acc =>
    if m.isPrefixOf (c :: rest) then
      acc.reverse :: splitAux m fuel ((c :: rest).drop m.length) []
    else
      splitAux m fuel rest (c :: acc)

/-- Python `cs.split(m)` for a non-empty separator `m`. -/
def pySplit (m cs : List Char) : List (List Char) :=
  splitAux m cs.length cs []

/-- The literal marker `"FINAL RANKING:"`. -/
def markerChars : List Char := String.data ("FINAL RANKING:")

/-- Python regex `\s` over ASCII input: space, tab, newline, CR, FF, VT. -/
def isPySpace (c : Char) : Bool :=
  c = ' ' || c = '\t' || c = '\n' || c = '\r' || c = Char.ofNat 11 || c = Char.ofNat 12

/-- Uppercase ASCII letter, the regex class `[A-Z]` (code points 65-90). -/
def isUpperAZ (c : Char) : Bool :=
  65 ≤ c.toNat && c.toNat ≤ 90

/-- The literal chunk `"Response "` common to both regex patterns. -/
def responseLit : List Char := String.data ("Response ")

/-- Match attempt for `Response [A-Z]` anchored at the head of `cs`:
on success return the matched label letter and the unconsumed rest. -/
def matchResponseAt (cs : List Char) : Option (Char × List Char) :=
  if responseLit.isPrefixOf cs then
    match cs.drop responseLit.length with
    | c :: rest => if isUpperAZ c then some (c, rest) else none
    | [] => none
  else none

/-- Match attempt for `\d+\.\s*Response [A-Z]` anchored at the head of `cs`.
`\d+` is greedy and `.` is not a digit, so backtracking semantics coincide
with "maximal digit run, then a period"; likewise `\s*` and the literal `R`
are disjoint.  Returns the label letter and the unconsumed rest. -/
def matchNumberedAt (cs : List Char) : Option (Char × List Char) :=
  if cs.takeWhile Char.isDigit = [] then none
  else
    match cs.dropWhile Char.isDigit with
    | c :: rest =>
      if c = '.' then matchResponseAt (rest.dropWhile isPySpace) else none
    | [] => none

/-- Fueled `re.findall` scan for `Response [A-Z]`: collect the label letters
of non-overlapping matches, left to right. -/
def findResponseAux : Nat → List Char → List Char
  | _, [] => []
  | 0, _ :: _ => []
  | fuel + 1, c :: rest =>
    match matchResponseAt (c :: rest) with
    | some (lab, after) => lab :: findResponseAux fuel after
    | none => findResponseAux fuel rest

/-- `re.findall(r'Response [A-Z]', cs)`, as label letters. -/
def findallResponse (cs : List Char) : List Char :=
  findResponseAux cs.length cs

/-- Fueled `re.findall` scan for `\d+\.\s*Response [A-Z]`. -/
def findNumberedAux : Nat → List Char → List Char
  | _, [] => []
  | 0, _ :: _ => []
  | fuel + 1, c :: rest =>
    match matchNumberedAt (c :: rest) with
    | some (lab, after) => lab :: findNumberedAux fuel after
    | none => findNumberedAux fuel rest

/-- `re.findall(r'\d+\.\s*Response [A-Z]', cs)`, as label letters. -/
def findallNumbered (cs : List Char) : List Char :=
  findNumberedAux cs.length cs

/-- Rebuild the `"Response X"` strings that the Python regexes return
(`re.search(r'Response [A-Z]', m).group()` just recovers this substring). -/
def labelString (c : Char) : String :=
  String.mk (responseLit ++ [c])

/-- `parse_ranking_from_text` (council.py lines 261-292): if the marker is
present, split on it and scan `parts[1]` — first for numbered entries, then
for bare `Response X` tokens; without the marker, scan the whole text. -/
def parse_ranking_from_text (ranking_text : String) : List String :=
  let cs := ranking_text.data
  if occursIn markerChars cs then
    let parts := pySplit markerChars cs
    if parts.length ≥ 2 then
      let ranking_section := parts.getD 1 []
      let numbered := findallNumbered ranking_section
      if numbered ≠ [] then numbered.map labelString
      else (findallResponse ranking_section).map labelString
    else (findallResponse cs).map labelString
  else (findallResponse cs).map labelString

/-! ### Stage 2: anonymization and ranking collection -/

/-- `{"model": ..., "ranking": ..., "parsed_ranking": ...}` entries. -/
structure Stage2Result where
  model : String
  ranking : String
  parsed_ranking : List String
deriving DecidableEq, Repr

/-- `labels = [chr(65 + i) for i in range(len(stage1_results))]`
(council.py line 84). -/
def labels (n : Nat) : List Char :=
  (List.range n).map fun i => Char.ofNat (65 + i)

/-- The dict-comprehension `{f"Response {label}": result['model'] ...}`
(council.py lines 87-90). -/
def label_to_model (stage1_results : List Stage1Result) : List (String × String) :=
  buildDict (((labels stage1_results.length).zip stage1_results).map
    fun p => (labelString p.1, p.2.model))

/-- `stage2_collect_rankings` (council.py lines 67-152): build labels and the
label-to-model dict from Stage-1 order, fan the ranking prompt out to every
council member, and keep — in dict order — each settled response together
with its parsed ranking. -/
def stage2_collect_rankings (stage1_results : List Stage1Result)
    (models : List String) (resp : QueryOutcome) :
    List Stage2Result × List (String × String) :=
  (((query_models_parallel_with_messages models resp).filterMap fun p =>
      match p.2 with
      | none => none
      | some r =>
        some ⟨p.1, r.content, parse_ranking_from_text r.content⟩),
    label_to_model stage1_results)

/-! ### Rank aggregation (`calculate_aggregate_rankings`, council.py 295-339) -/

/-- An aggregate entry `{"model": ..., "average_rank": ..., "rankings_count": ...}`.
The Python float is modelled exactly as a rational. -/
structure AggregateEntry where
  model : String
  average_rank : ℚ
  rankings_count : Nat
deriving DecidableEq, Repr

/-- Python `round(x, 2)` on the exact rational value. -/
def roundTo2 (q : ℚ) : ℚ :=
  (round (q * 100) : ℤ) / 100

/-- One `model_positions[model_name].append(position)` on a `defaultdict(list)`:
first touch appends the key at the end, later touches extend its list in
place. -/
def appendPos (d : List (String × List Nat)) (m : String) (p : Nat) :
    List (String × List Nat) :=
  match d with
  | [] => [(m, [p])]
  | (k₀, v₀) :: rest =>
    if k₀ = m then (k₀, v₀ ++ [p]) :: rest else (k₀, v₀) :: appendPos rest m p

/-- The sequence of `(model, position)` appends performed by the nested loops
of `calculate_aggregate_rankings`: for each Stage-2 result in list order,
re-parse its raw ranking text and walk the parsed labels with 1-based
positions, keeping those present in `label_to_model`. -/
def collectPairs (stage2_results : List Stage2Result)
    (l2m : List (String × String)) : List (String × Nat) :=
  stage2_results.flatMap fun r =>
    (List.enumFrom 1 (parse_ranking_from_text r.ranking)).filterMap fun q =>
      (listLookup l2m q.2).map fun m => (m, q.1)

/-- The `model_positions` defaultdict after both loops. -/
def model_positions (stage2_results : List Stage2Result)
    (l2m : List (String × String)) : List (String × List Nat) :=
  (collectPairs stage2_results l2m).foldl (fun d q => appendPos d q.1 q.2) []

/-- Stable insertion into a list sorted by `average_rank`: the new entry goes
after every entry whose key is less than or equal to its own.  Folding it
over a list reproduces the stable `list.sort(key=...)` of Python. -/
def insertByRank (x : AggregateEntry) : List AggregateEntry → List AggregateEntry
  | [] => [x]
  | y :: ys =>
    if x.average_rank < y.average_rank then x :: y :: ys else y :: insertByRank x ys

/-- Stable sort by `average_rank` (Python `aggregate.sort(key=lambda x: x['average_rank'])`). -/
def sortByRank (l : List AggregateEntry) : List AggregateEntry :=
  l.foldl (fun acc x => insertByRank x acc) []

/-- `calculate_aggregate_rankings` (council.py lines 295-339). -/
def calculate_aggregate_rankings (stage2_results : List Stage2Result)
    (l2m : List (String × String)) : List AggregateEntry :=
  sortByRank ((model_positions stage2_results l2m).filterMap fun q =>
    if q.2 ≠ [] then
      some ⟨q.1, roundTo2 ((q.2.sum : ℚ) / q.2.length), q.2.length⟩
    else none)

/-! ### Batch pipeline controller (`run_full_council`, council.py 380-437)

Besides the returned tuple we record how many model queries Stage 2 and
Stage 3 issue (a Stage-2 invocation queries every council member once; a
Stage-3 invocation queries the chairman once), so that "Stage 2/3 are never
invoked" is a statement about the trace. -/

/-- The tuple returned by `run_full_council`, plus query counters.
`metadata = none` models the empty dict `{}`. -/
structure RunTrace where
  stage1 : List Stage1Result
  stage2 : List Stage2Result
  stage3 : Stage3Result
  metadata : Option (List (String × String) × List AggregateEntry)
  stage2Queries : Nat
  stage3Queries : Nat
deriving DecidableEq, Repr

/-- Sentinel for an empty member list (council.py lines 398-402). -/
def noModelsSentinel : Stage3Result :=
  ⟨"error", "No models selected. Add at least one persona to the council."⟩

/-- Sentinel for total Stage-1 failure (council.py lines 408-412). -/
def allFailedSentinel : Stage3Result :=
  ⟨"error", "All models failed to respond. Please try again."⟩

/-- `run_full_council` (council.py lines 380-437). -/
def run_full_council (chairman : String) (models : List String)
    (resp1 resp2 : QueryOutcome) (resp3 : Option ModelResponse) : RunTrace :=
  if models = [] then
    ⟨[], [], noModelsSentinel, none, 0, 0⟩
  else
    let stage1_results := stage1_collect_responses models resp1
    if stage1_results = [] then
      ⟨[], [], allFailedSentinel, none, 0, 0⟩
    else
      let s2 := stage2_collect_rankings stage1_results models resp2
      let aggregate_rankings := calculate_aggregate_rankings s2.1 s2.2
      let stage3_result := stage3_synthesize_final chairman resp3
      ⟨stage1_results, s2.1, stage3_result, some (s2.2, aggregate_rankings),
        models.length, 1⟩

/-! ### Streaming controller (`send_message_stream`, main.py 250-328)

The SSE generator is modelled as the list of event types it yields, plus the
stage query counters.  Exceptions escaping an awaited step are modelled by
`failAt`: `some k` means the k-th awaited operation raises (0 = user-message
persistence / title-task creation, 1 = the Stage-1 call, 2 = the Stage-2
call or aggregation, 3 = the Stage-3 call, 4 and beyond = the title await or
assistant persistence), in which case the generator yields a single terminal
`error` event after whatever it already yielded.  The title task is created
only when the turn is the conversation's first message. -/

inductive EventType where
  | stage1_start | stage1_complete | stage2_start | stage2_complete
  | stage3_start | stage3_complete | title_complete | complete | error
deriving DecidableEq, Repr

/-- The observable trace of one streaming run. -/
structure StreamTrace where
  events : List EventType
  stage1 : List Stage1Result
  stage2Queries : Nat
  stage3Queries : Nat
deriving DecidableEq, Repr

/-- `send_message_stream`'s `event_generator` (main.py lines 270-319). -/
def send_message_stream (firstMessage : Bool) (models : List String)
    (resp1 : QueryOutcome) (failAt : Option Nat) : StreamTrace :=
  match failAt with
  | some 0 => ⟨[.error], [], 0, 0⟩
  | some 1 => ⟨[.stage1_start, .error], [], 0, 0⟩
  | some 2 =>
    ⟨[.stage1_start, .stage1_complete, .stage2_start, .error],
      stage1_collect_responses models resp1, models.length, 0⟩
  | some 3 =>
    ⟨[.stage1_start, .stage1_complete, .stage2_start, .stage2_complete,
        .stage3_start, .error],
      stage1_collect_responses models resp1, models.length, 1⟩
  | some (_ + 4) =>
    ⟨[.stage1_start, .stage1_complete, .stage2_start, .stage2_complete,
        .stage3_start, .stage3_complete, .error],
      stage1_collect_responses models resp1, models.length, 1⟩
  | none =>
    ⟨[.stage1_start, .stage1_complete, .stage2_start, .stage2_complete,
        .stage3_start, .stage3_complete] ++
      (if firstMessage then [.title_complete] else []) ++ [.complete],
      stage1_collect_responses models resp1, models.length, 1⟩

/-! ### Supporting lemmas: substring occurrence -/

theorem occursIn_nil (m : List Char) : occursIn m [] = m.isEmpty := rfl

theorem occursIn_cons (m : List Char) (c : Char) (rest : List Char) :
    occursIn m (c :: rest) = (m.isPrefixOf (c :: rest) || occursIn m rest) := rfl

theorem occursIn_of_startsWith {m cs : List Char} (h : m <+: cs) : occursIn m cs = true := by
  cases cs with
  | nil =>
    have : m = [] := List.prefix_nil.mp h
    simp [this, occursIn_nil]
  | cons c rest =>
    rw [occursIn_cons]
    simp [ List.isPrefixOf_iff_prefix.mpr h]

theorem occursIn_append_left {m t : List Char} (s : List Char)
    (h : occursIn m t = true) : occursIn m (s ++ t) = true := by
  induction s with
  | nil => simpa using h
  | cons c s ih => rw [List.cons_append, occursIn_cons, ih]; simp

theorem occursIn_of_suffix {m t cs : List Char} (h : t <:+ cs)
    (ht : occursIn m t = true) : occursIn m cs = true := by
  obtain ⟨s, rfl⟩ := h
  exact occursIn_append_left s ht

theorem occursIn_tail_false {m : List Char} {c : Char} {rest : List Char}
    (h : occursIn m (c :: rest) = false) : occursIn m rest = false := by
  rw [occursIn_cons] at h
  exact (Bool.or_eq_false_iff.mp h).2

theorem not_isPrefixOf_of_occursIn_false {m : List Char} {c : Char} {rest : List Char}
    (h : occursIn m (c :: rest) = false) : m.isPrefixOf (c :: rest) = false := by
  rw [occursIn_cons] at h
  exact (Bool.or_eq_false_iff.mp h).1

/-! ### Supporting lemmas: Python dict semantics -/

theorem dictInsert_of_not_mem {β : Type} {k : String} (v : β) {d : List (String × β)}
    (h : k ∉ d.map Prod.fst) : dictInsert k v d = d ++ [(k, v)] := by
  induction d with
  | nil => rfl
  | cons p rest ih =>
    simp only [List.map_cons, List.mem_cons] at h
    push_neg at h
    simp [dictInsert, Ne.symm h.1, ih h.2]

theorem listLookup_dictInsert {β : Type} (k' : String) (v : β) (d : List (String × β))
    (k : String) :
    listLookup (dictInsert k' v d) k = if k' = k then some v else listLookup d k := by
  induction d with
  | nil => simp [dictInsert, listLookup]
  | cons p rest ih =>
    obtain ⟨k₀, v₀⟩ := p
    by_cases h₀ : k₀ = k'
    · subst h₀
      by_cases hk : k₀ = k <;> simp [dictInsert, listLookup, hk]
    · by_cases hk : k₀ = k
      · subst hk
        simp [dictInsert, listLookup, h₀, Ne.symm h₀]
      · simp [dictInsert, listLookup, h₀, hk, ih]

theorem map_fst_dictInsert {β : Type} (k : String) (v : β) (d : List (String × β)) :
    (dictInsert k v d).map Prod.fst =
      if k ∈ d.map Prod.fst then d.map Prod.fst else d.map Prod.fst ++ [k] := by
  induction d with
  | nil => simp [dictInsert]
  | cons p rest ih =>
    obtain ⟨k₀, v₀⟩ := p
    by_cases h₀ : k₀ = k
    · simp [dictInsert, h₀]
    · simp only [dictInsert, if_neg h₀, List.map_cons, List.mem_cons, ih]
      by_cases hm : k ∈ rest.map Prod.fst <;> simp [hm, Ne.symm h₀]

theorem nodup_map_fst_foldl_dictInsert {β : Type} (ps : List (String × β))
    (acc : List (String × β)) (hacc : (acc.map Prod.fst).Nodup) :
    ((ps.foldl (fun d p => dictInsert p.1 p.2 d) acc).map Prod.fst).Nodup := by
  induction ps generalizing acc with
  | nil => simpa using hacc
  | cons p rest ih =>
    refine ih _ ?_
    rw [map_fst_dictInsert]
    by_cases hm : p.1 ∈ acc.map Prod.fst
    · simpa [hm] using hacc
    · simp only [if_neg hm]
      simpa [List.nodup_append, hm] using hacc

theorem buildDict_keys_nodup {β : Type} (ps : List (String × β)) :
    ((buildDict ps).map Prod.fst).Nodup :=
  nodup_map_fst_foldl_dictInsert ps [] (by simp)

theorem foldl_dictInsert_of_nodup {β : Type} (ps acc : List (String × β))
    (h : ((acc ++ ps).map Prod.fst).Nodup) :
    ps.foldl (fun d p => dictInsert p.1 p.2 d) acc = acc ++ ps := by
  induction ps generalizing acc with
  | nil => simp
  | cons p rest ih =>
    have hmem : p.1 ∉ acc.map Prod.fst := by
      intro hin
      rw [List.map_append, List.nodup_append] at h
      exact h.2.2 hin (by simp)
    have step : dictInsert p.1 p.2 acc = acc ++ [p] := dictInsert_of_not_mem p.2 hmem
    calc (p :: rest).foldl (fun d q => dictInsert q.1 q.2 d) acc
        = rest.foldl (fun d q => dictInsert q.1 q.2 d) (acc ++ [p]) := by
          simp [List.foldl_cons, step]
      _ = (acc ++ [p]) ++ rest := ih (acc ++ [p]) (by simpa using h)
      _ = acc ++ p :: rest := by simp

theorem buildDict_of_nodup {β : Type} (ps : List (String × β))
    (h : (ps.map Prod.fst).Nodup) : buildDict ps = ps :=
  foldl_dictInsert_of_nodup ps [] (by simpa using h)

theorem listLookup_foldl_dictInsert {β : Type} (ps acc : List (String × β)) (k : String) :
    listLookup (ps.foldl (fun d p => dictInsert p.1 p.2 d) acc) k =
      match ps.reverse.find? (fun p => p.1 = k) with
      | some p => some p.2
      | none => listLookup acc k := by
  induction ps generalizing acc with
  | nil => simp
  | cons p rest ih =>
    rw [List.foldl_cons, ih]
    rw [List.reverse_cons, List.find?_append]
    cases hfind : rest.reverse.find? (fun p => p.1 = k) with
    | some q => simp [hfind, Option.orElse]
    | none =>
      by_cases hk : p.1 = k <;>
        simp [hfind, Option.orElse, listLookup_dictInsert, hk]

theorem listLookup_buildDict {β : Type} (ps : List (String × β)) (k : String) :
    listLookup (buildDict ps) k =
      (ps.reverse.find? (fun p => p.1 = k)).map Prod.snd := by
  rw [buildDict, listLookup_foldl_dictInsert]
  cases h : ps.reverse.find? (fun p => p.1 = k) <;> simp [h, listLookup]

/-! ### Supporting lemmas: stage result shapes -/

theorem filterMap_settled_map {α : Type} (d : List (String × Option ModelResponse))
    (f : String → ModelResponse → α) (proj : α → String)
    (hproj : ∀ k r, proj (f k r) = k) :
    ((d.filterMap fun p => match p.2 with
        | none => none
        | some r => some (f p.1 r)).map proj) =
      (d.filter fun p => p.2.isSome).map Prod.fst := by
  induction d with
  | nil => rfl
  | cons p rest ih =>
    obtain ⟨k, r⟩ := p
    cases r <;> simp [ih, hproj]

theorem stage1_map_model (models : List String) (resp : QueryOutcome) :
    ((stage1_collect_responses models resp).map Stage1Result.model) =
      ((query_models_parallel_with_messages models resp).filter
        fun p => p.2.isSome).map Prod.fst := by
  by_cases hm : models = []
  · subst hm; rfl
  · rw [stage1_collect_responses, if_neg hm]
    exact filterMap_settled_map _ (fun k r => ⟨k, r.content⟩) Stage1Result.model
      fun _ _ => rfl

theorem stage1_models_nodup (models : List String) (resp : QueryOutcome) :
    ((stage1_collect_responses models resp).map Stage1Result.model).Nodup := by
  rw [stage1_map_model]
  exact (buildDict_keys_nodup _).sublist ((List.filter_sublist _).map _)

theorem stage2_map_model (stage1_results : List Stage1Result) (models : List String)
    (resp : QueryOutcome) :
    ((stage2_collect_rankings stage1_results models resp).1.map Stage2Result.model) =
      ((query_models_parallel_with_messages models resp).filter
        fun p => p.2.isSome).map Prod.fst := by
  exact filterMap_settled_map _ (fun k r => ⟨k, r.content, parse_ranking_from_text r.content⟩)
    Stage2Result.model fun _ _ => rfl

theorem stage2_models_nodup (stage1_results : List Stage1Result) (models : List String)
    (resp : QueryOutcome) :
    ((stage2_collect_rankings stage1_results models resp).1.map Stage2Result.model).Nodup := by
  rw [stage2_map_model]
  exact (buildDict_keys_nodup _).sublist ((List.filter_sublist _).map _)

theorem enum_map_model_keys (models : List String) (resp : QueryOutcome) :
    ((models.enum.map fun p => (p.2, resp p.1)).map Prod.fst) = models := by
  rw [List.map_map]
  exact List.enum_map_snd models

theorem stage1_eq_enum_filterMap (models : List String) (resp : QueryOutcome)
    (h : models.Nodup) :
    stage1_collect_responses models resp =
      models.enum.filterMap fun p =>
        (resp p.1).map fun r => ⟨p.2, r.content⟩ := by
  by_cases hm : models = []
  · subst hm; rfl
  · rw [stage1_collect_responses, if_neg hm, query_models_parallel_with_messages,
      buildDict_of_nodup _ ((enum_map_model_keys models resp).symm ▸ h),
      List.filterMap_map]
    have hfun : ((fun p : String × Option ModelResponse =>
          match p.2 with
          | none => none
          | some r => some (⟨p.1, r.content⟩ : Stage1Result)) ∘
            fun p : Nat × String => (p.2, resp p.1)) =
        fun p : Nat × String => (resp p.1).map fun r => ⟨p.2, r.content⟩ := by
      funext p
      simp only [Function.comp_apply]
      cases resp p.1 <;> rfl
    rw [hfun]

/-! ### Supporting lemmas: labels -/

theorem labels_length (n : Nat) : (labels n).length = n := by simp [labels]

theorem labels_get (n i : Nat) (h : i < (labels n).length) :
    (labels n).get ⟨i, h⟩ = Char.ofNat (65 + i) := by
  simp [labels]

theorem char_toNat_ofNat_lt (k : Nat) (h : k < 91) : (Char.ofNat k).toNat = k := by
  revert h
  revert k
  decide

theorem labels_mem (n : Nat) (c : Char) :
    c ∈ labels n ↔ ∃ i, i < n ∧ c = Char.ofNat (65 + i) := by
  simp only [labels, List.mem_map, List.mem_range]
  exact ⟨fun ⟨i, hi, he⟩ => ⟨i, hi, he.symm⟩, fun ⟨i, hi, he⟩ => ⟨i, hi, he.symm⟩⟩

theorem labels_upper (n : Nat) (hn : n ≤ 26) :
    ∀ c ∈ labels n, 'A' ≤ c ∧ c ≤ 'Z' := by
  have key : ∀ i, i < 26 → 'A' ≤ Char.ofNat (65 + i) ∧ Char.ofNat (65 + i) ≤ 'Z' := by
    decide
  intro c hc
  obtain ⟨i, hi, rfl⟩ := (labels_mem n c).mp hc
  exact key i (lt_of_lt_of_le hi hn)

theorem labels_nodup (n : Nat) (hn : n ≤ 26) : (labels n).Nodup := by
  refine List.Nodup.map_on ?_ (List.nodup_range n)
  intro i hi j hj hij
  rw [List.mem_range] at hi hj
  have h₁ : (Char.ofNat (65 + i)).toNat = 65 + i :=
    char_toNat_ofNat_lt _ (by omega)
  have h₂ : (Char.ofNat (65 + j)).toNat = 65 + j :=
    char_toNat_ofNat_lt _ (by omega)
  have := congrArg Char.toNat hij
  rw [h₁, h₂] at this
  omega

/-! ### Supporting lemmas: Python `str.split` -/

theorem splitAux_congr (m : List Char) (hm : m ≠ []) :
    ∀ f₁ f₂ (cs acc : List Char), cs.length ≤ f₁ → cs.length ≤ f₂ →
      splitAux m f₁ cs acc = splitAux m f₂ cs acc := by
  intro f₁
  induction f₁ with
  | zero =>
    intro f₂ cs acc h1 _
    have hcs : cs = [] := List.length_eq_zero.mp (Nat.le_zero.mp h1)
    subst hcs
    cases f₂ <;> rfl
  | succ f ih =>
    intro f₂ cs acc h1 h2
    cases cs with
    | nil => cases f₂ <;> rfl
    | cons c rest =>
      have hm1 : 1 ≤ m.length := by
        cases m with
        | nil => exact absurd rfl hm
        | cons _ _ => simp
      obtain ⟨g, rfl⟩ : ∃ g, f₂ = g + 1 := ⟨f₂ - 1, by simp at h2; omega⟩
      simp only [splitAux]
      split
      · congr 1
        apply ih
        · simp only [List.length_drop, List.length_cons] at *
          omega
        · simp only [List.length_drop, List.length_cons] at *
          omega
      · apply ih
        · simp only [List.length_cons] at *; omega
        · simp only [List.length_cons] at *; omega

theorem splitAux_section (m : List Char) (hm : m ≠ []) :
    ∀ (a rest acc : List Char) (fuel : Nat),
      (a ++ (m ++ rest)).length ≤ fuel →
      occursIn m ((a ++ m).dropLast) = false →
      splitAux m fuel (a ++ (m ++ rest)) acc = (acc.reverse ++ a) :: pySplit m rest := by
  intro a
  induction a with
  | nil =>
    intro rest acc fuel hf _
    simp only [List.nil_append] at hf ⊢
    have hm1 : 1 ≤ m.length := by
      cases m with
      | nil => exact absurd rfl hm
      | cons _ _ => simp
    obtain ⟨g, rfl⟩ : ∃ g, fuel = g + 1 := by
      refine ⟨fuel - 1, ?_⟩
      simp at hf
      omega
    obtain ⟨c, m', rfl⟩ : ∃ c m', m = c :: m' := by
      cases m with
      | nil => exact absurd rfl hm
      | cons c m' => exact ⟨c, m', rfl⟩
    rw [List.cons_append, splitAux]
    have hpre : (c :: m').isPrefixOf ((c :: m') ++ rest) = true :=
      List.isPrefixOf_iff_prefix.mpr (List.prefix_append _ _)
    rw [List.cons_append] at hpre
    simp only [hpre, if_true]
    rw [← List.cons_append, List.drop_left]
    simp only [List.append_nil]
    congr 1
    rw [pySplit]
    apply splitAux_congr _ hm
    · simp only [List.length_append, List.length_cons] at hf ⊢
      omega
    · exact le_rfl
  | cons x a' ih =>
    intro rest acc fuel hf hocc
    have hne : a' ++ m ≠ [] := by
      intro hcon
      exact hm (List.append_eq_nil.mp hcon).2
    obtain ⟨g, rfl⟩ : ∃ g, fuel = g + 1 := by
      refine ⟨fuel - 1, ?_⟩
      simp at hf
      omega
    rw [List.cons_append, splitAux]
    have hnotpre : m.isPrefixOf (x :: (a' ++ (m ++ rest))) = false := by
      by_contra hcon
      have hpre : m <+: x :: (a' ++ (m ++ rest)) :=
        List.isPrefixOf_iff_prefix.mp (Bool.of_not_eq_false hcon)
      have hsplit : x :: (a' ++ (m ++ rest)) = (x :: (a' ++ m)) ++ rest := by simp
      have hdp : (x :: (a' ++ m)).dropLast <+: x :: (a' ++ (m ++ rest)) := by
        rw [hsplit]
        exact ( List.dropLast_prefix (x :: (a' ++ m))).trans (List.prefix_append _ _)
      have hlen : m.length ≤ (x :: (a' ++ m)).dropLast.length := by
        simp [List.length_dropLast]
      have hmp : m <+: (x :: (a' ++ m)).dropLast :=
        List.prefix_of_prefix_length_le hpre hdp hlen
      have : occursIn m ((x :: a' ++ m).dropLast) = true := by
        rw [List.cons_append]
        exact occursIn_of_startsWith hmp
      rw [this] at hocc
      exact absurd hocc (by simp)
    simp only [hnotpre, Bool.false_eq_true, if_false]
    have hocc2 : occursIn m ((a' ++ m).dropLast) = false := by
      rw [List.cons_append, List.dropLast_cons_of_ne_nil hne] at hocc
      exact occursIn_tail_false hocc
    rw [ih rest (x :: acc) g (by simp at hf ⊢; omega) hocc2]
    simp

theorem pySplit_section (m : List Char) (hm : m ≠ []) (a rest : List Char)
    (hocc : occursIn m ((a ++ m).dropLast) = false) :
    pySplit m (a ++ (m ++ rest)) = a :: pySplit m rest := by
  rw [pySplit, splitAux_section m hm a rest [] _ le_rfl hocc]
  simp

/-! ### Supporting lemmas: regex scanners -/

/-- No `"Response <letter>"` token occurs anywhere in `cs` (quantified over
the 26 uppercase letters, so the predicate is decidable on concrete text). -/
def noResponseToken (cs : List Char) : Prop :=
  ∀ i : Nat, i < 26 → occursIn (responseLit ++ [Char.ofNat (65 + i)]) cs = false

instance noResponseTokenDecidable (cs : List Char) :
    Decidable (noResponseToken cs) := by
  unfold noResponseToken
  infer_instance

/-- Every character in the class `[A-Z]` is `Char.ofNat (65 + i)` for some
`i < 26`. -/
theorem upperAZ_exists_index {c : Char} (h : isUpperAZ c = true) :
    ∃ i, i < 26 ∧ c = Char.ofNat (65 + i) := by
  rw [isUpperAZ, Bool.and_eq_true, decide_eq_true_eq, decide_eq_true_eq] at h
  refine ⟨c.toNat - 65, by omega, ?_⟩
  have : 65 + (c.toNat - 65) = c.toNat := by omega
  rw [this, Char.ofNat_toNat]

theorem occursIn_append_right {m t : List Char} (u : List Char)
    (h : occursIn m t = true) : occursIn m (t ++ u) = true := by
  induction t with
  | nil =>
    rw [occursIn_nil] at h
    have : m = [] := by simpa using h
    exact occursIn_of_startsWith (this ▸ List.nil_prefix)
  | cons c t ih =>
    rw [occursIn_cons] at h
    rcases Bool.or_eq_true_iff.mp h with hpre | htail
    · have : m <+: (c :: t) := List.isPrefixOf_iff_prefix.mp hpre
      exact occursIn_of_startsWith (this.trans (List.prefix_append _ _))
    · rw [List.cons_append, occursIn_cons, ih htail]
      simp

theorem occursIn_of_segment {m t cs : List Char} (h : t <:+: cs)
    (ht : occursIn m t = true) : occursIn m cs = true := by
  obtain ⟨s, u, rfl⟩ := h
  rw [List.append_assoc]
  exact occursIn_append_left s (occursIn_append_right u ht)

theorem noResponseToken_of_segment {t cs : List Char} (h : t <:+: cs)
    (H : noResponseToken cs) : noResponseToken t := by
  intro i hi
  by_contra hcon
  have := occursIn_of_segment h (Bool.of_not_eq_false hcon)
  rw [H i hi] at this
  exact absurd this (by simp)

theorem matchResponseAt_some {cs : List Char} {lab : Char} {after : List Char}
    (h : matchResponseAt cs = some (lab, after)) :
    (responseLit ++ [lab]) <+: cs ∧ isUpperAZ lab = true := by
  unfold matchResponseAt at h
  split at h
  case isTrue hpre =>
    obtain ⟨t, ht⟩ := List.isPrefixOf_iff_prefix.mp hpre
    have hdrop : cs.drop responseLit.length = t := by
      rw [← ht, List.drop_left]
    rw [hdrop] at h
    cases t with
    | nil => exact absurd h (by simp)
    | cons c rest =>
      by_cases hu : isUpperAZ c = true
      · simp only [hu, if_true, Option.some.injEq, Prod.mk.injEq] at h
        obtain ⟨rfl, rfl⟩ := h
        refine ⟨⟨rest, ?_⟩, hu⟩
        rw [← ht]
        simp
      · simp [hu] at h
  case isFalse => exact absurd h (by simp)

theorem matchNumberedAt_some {cs : List Char} {lab : Char} {after : List Char}
    (h : matchNumberedAt cs = some (lab, after)) :
    occursIn (responseLit ++ [lab]) cs = true ∧ isUpperAZ lab = true := by
  rw [matchNumberedAt] at h
  by_cases hd : cs.takeWhile Char.isDigit = []
  · rw [if_pos hd] at h
    exact absurd h (by simp)
  · rw [if_neg hd] at h
    split at h
    next c rest hdw =>
      by_cases hc : c = '.'
      · subst hc
        rw [if_pos rfl] at h
        obtain ⟨hpre, hupper⟩ := matchResponseAt_some h
        refine ⟨?_, hupper⟩
        have h₁ : rest.dropWhile isPySpace <:+ rest := List.dropWhile_suffix _
        have h₂ : rest <:+ '.' :: rest := ⟨['.'], rfl⟩
        have h₃ : '.' :: rest <:+ cs := hdw ▸ List.dropWhile_suffix _
        exact occursIn_of_suffix ((h₁.trans h₂).trans h₃)
          (occursIn_of_startsWith hpre)
      · rw [if_neg hc] at h
        exact absurd h (by simp)
    next hdw =>
      exact absurd h (by simp)

theorem findResponseAux_of_noToken :
    ∀ (fuel : Nat) (cs : List Char), noResponseToken cs →
      findResponseAux fuel cs = [] := by
  intro fuel
  induction fuel with
  | zero => intro cs _; cases cs <;> rfl
  | succ f ih =>
    intro cs H
    cases cs with
    | nil => rfl
    | cons c rest =>
      cases hmatch : matchResponseAt (c :: rest) with
      | some q =>
        obtain ⟨lab, after⟩ := q
        obtain ⟨hpre, hupper⟩ := matchResponseAt_some hmatch
        obtain ⟨i, hi, rfl⟩ := upperAZ_exists_index hupper
        have := occursIn_of_startsWith hpre
        rw [H i hi] at this
        exact absurd this (by simp)
      | none =>
        rw [findResponseAux, hmatch]
        refine ih rest fun i hi => ?_
        exact occursIn_tail_false (H i hi)

theorem findNumberedAux_of_noToken :
    ∀ (fuel : Nat) (cs : List Char), noResponseToken cs →
      findNumberedAux fuel cs = [] := by
  intro fuel
  induction fuel with
  | zero => intro cs _; cases cs <;> rfl
  | succ f ih =>
    intro cs H
    cases cs with
    | nil => rfl
    | cons c rest =>
      cases hmatch : matchNumberedAt (c :: rest) with
      | some q =>
        obtain ⟨lab, after⟩ := q
        obtain ⟨hocc, hupper⟩ := matchNumberedAt_some hmatch
        obtain ⟨i, hi, rfl⟩ := upperAZ_exists_index hupper
        rw [H i hi] at hocc
        exact absurd hocc (by simp)
      | none =>
        rw [findNumberedAux, hmatch]
        refine ih rest fun i hi => ?_
        exact occursIn_tail_false (H i hi)

theorem splitAux_parts_segment (m : List Char) :
    ∀ (fuel : Nat) (cs acc p : List Char), p ∈ splitAux m fuel cs acc →
      p <:+: (acc.reverse ++ cs) := by
  intro fuel
  induction fuel with
  | zero =>
    intro cs acc p hp
    cases cs with
    | nil =>
      simp only [splitAux, List.mem_singleton] at hp
      subst hp
      simp
    | cons c rest =>
      simp only [splitAux, List.mem_singleton] at hp
      subst hp
      exact (List.prefix_append _ _).isInfix
  | succ f ih =>
    intro cs acc p hp
    cases cs with
    | nil =>
      simp only [splitAux, List.mem_singleton] at hp
      subst hp
      simp
    | cons c rest =>
      rw [splitAux] at hp
      split at hp
      · rcases List.mem_cons.mp hp with rfl | hmem
        · exact (List.prefix_append _ _).isInfix
        · have hdropinf : p <:+: (c :: rest).drop m.length := by
            simpa using ih _ [] p hmem
          have hsuff : (c :: rest).drop m.length <:+ c :: rest :=
            List.drop_suffix _ _
          obtain ⟨u, v, huv⟩ := hdropinf.trans hsuff.isInfix
          exact ⟨acc.reverse ++ u, v, by rw [← huv]; simp⟩
      · have := ih rest (c :: acc) p hp
        simpa using this

theorem parse_of_noToken (text : String) (H : noResponseToken text.data) :
    parse_ranking_from_text text = [] := by
  rw [parse_ranking_from_text]
  by_cases hocc : occursIn markerChars text.data = true
  · simp only [hocc, if_true]
    by_cases hlen : (pySplit markerChars text.data).length ≥ 2
    · have h1 : 1 < (pySplit markerChars text.data).length := by omega
      have hmem : (pySplit markerChars text.data).getD 1 [] ∈
          pySplit markerChars text.data := by
        rw [List.getD_eq_get _ _ h1]
        exact (pySplit markerChars text.data).get_mem 1 h1
      have hinf : (pySplit markerChars text.data).getD 1 [] <:+: text.data := by
        simpa using splitAux_parts_segment markerChars _ _ _ _ hmem
      have Hsec := noResponseToken_of_segment hinf H
      have hnum : findallNumbered ((pySplit markerChars text.data).getD 1 []) = [] :=
        findNumberedAux_of_noToken _ _ Hsec
      have hresp : findallResponse ((pySplit markerChars text.data).getD 1 []) = [] :=
        findResponseAux_of_noToken _ _ Hsec
      rw [if_pos hlen, hnum, hresp]
      simp
    · rw [if_neg hlen]
      have hresp : findallResponse text.data = [] := findResponseAux_of_noToken _ _ H
      simp [hresp]
  · simp only [Bool.not_eq_true] at hocc
    simp only [hocc]
    have hresp : findallResponse text.data = [] := findResponseAux_of_noToken _ _ H
    simp [hresp]

/-! ### Supporting lemmas: rank aggregation -/

/-- The 1-based rank positions observed for one key in a flat append
sequence, in encounter order. -/
def obsP (ps : List (String × Nat)) (m : String) : List Nat :=
  (ps.filter fun q => q.1 = m).map Prod.snd

/-- The observed rank positions of model `m` across all parsed Stage-2
rankings, in encounter order (spec-side description of the aggregator's
input for one model). -/
def observations (stage2_results : List Stage2Result)
    (l2m : List (String × String)) (m : String) : List Nat :=
  obsP (collectPairs stage2_results l2m) m

/-- First-touch order of keys: the order in which a `defaultdict` acquires
its keys. -/
def firstOccs (ks : List String) : List String :=
  ks.foldl (fun acc k => if k ∈ acc then acc else acc ++ [k]) []

/-- The aggregate entry that model `m` receives (spec-side description). -/
def aggEntryOf (stage2_results : List Stage2Result)
    (l2m : List (String × String)) (m : String) : AggregateEntry :=
  ⟨m, roundTo2 (((observations stage2_results l2m m).sum : ℚ) /
      (observations stage2_results l2m m).length),
    (observations stage2_results l2m m).length⟩

theorem mem_foldl_firstOccs (l : List String) :
    ∀ (acc : List String) (k : String),
      k ∈ l.foldl (fun acc k => if k ∈ acc then acc else acc ++ [k]) acc ↔
        k ∈ acc ∨ k ∈ l := by
  induction l with
  | nil => intro acc k; simp
  | cons x xs ih =>
    intro acc k
    rw [List.foldl_cons, ih]
    by_cases hx : x ∈ acc
    · simp only [if_pos hx, List.mem_cons]
      constructor
      · rintro (h | h)
        · exact Or.inl h
        · exact Or.inr (Or.inr h)
      · rintro (h | rfl | h)
        · exact Or.inl h
        · exact Or.inl hx
        · exact Or.inr h
    · simp only [if_neg hx, List.mem_append, List.mem_singleton, List.mem_cons]
      tauto

theorem mem_firstOccs (ks : List String) (k : String) :
    k ∈ firstOccs ks ↔ k ∈ ks := by
  rw [firstOccs, mem_foldl_firstOccs]
  simp

theorem nodup_foldl_firstOccs (l : List String) :
    ∀ (acc : List String), acc.Nodup →
      (l.foldl (fun acc k => if k ∈ acc then acc else acc ++ [k]) acc).Nodup := by
  induction l with
  | nil => intro acc h; simpa using h
  | cons x xs ih =>
    intro acc h
    rw [List.foldl_cons]
    by_cases hx : x ∈ acc
    · rw [if_pos hx]; exact ih acc h
    · rw [if_neg hx]
      refine ih _ ?_
      simp [List.nodup_append, h, hx]

theorem firstOccs_nodup (ks : List String) : (firstOccs ks).Nodup :=
  nodup_foldl_firstOccs ks [] (by simp)

theorem firstOccs_append_singleton (ks : List String) (k : String) :
    firstOccs (ks ++ [k]) =
      if k ∈ firstOccs ks then firstOccs ks else firstOccs ks ++ [k] := by
  rw [firstOccs, List.foldl_append]
  rfl

theorem obsP_append_singleton (ps : List (String × Nat)) (q : String × Nat)
    (m : String) :
    obsP (ps ++ [q]) m = obsP ps m ++ if q.1 = m then [q.2] else [] := by
  rw [obsP, List.filter_append, List.map_append, obsP]
  by_cases h : q.1 = m <;> simp [h]

theorem obsP_eq_nil_of_not_mem {ps : List (String × Nat)} {m : String}
    (h : m ∉ ps.map Prod.fst) : obsP ps m = [] := by
  rw [obsP, List.filter_eq_nil.mpr, List.map_nil]
  intro q hq
  simp only [decide_eq_true_eq]
  intro hcon
  exact h (List.mem_map.mpr ⟨q, hq, hcon⟩)

theorem appendPos_of_not_mem {d : List (String × List Nat)} {m : String} (p : Nat)
    (h : m ∉ d.map Prod.fst) : appendPos d m p = d ++ [(m, [p])] := by
  induction d with
  | nil => rfl
  | cons e rest ih =>
    simp only [List.map_cons, List.mem_cons] at h
    push_neg at h
    simp [appendPos, Ne.symm h.1, ih h.2]

theorem appendPos_map_of_mem {l : List String} {m : String}
    (g : String → List Nat) (p : Nat) (hnd : l.Nodup) (hm : m ∈ l) :
    appendPos (l.map fun k => (k, g k)) m p =
      l.map fun k => (k, if k = m then g k ++ [p] else g k) := by
  induction l with
  | nil => exact absurd hm (List.not_mem_nil m)
  | cons x xs ih =>
    rcases List.mem_cons.mp hm with rfl | hmem
    · have hnotin : m ∉ xs := (List.nodup_cons.mp hnd).1
      simp only [List.map_cons, appendPos, if_true]
      congr 1
      refine (List.map_congr_left ?_).symm
      intro k hk
      have hkm : k ≠ m := fun hcon => hnotin (hcon ▸ hk)
      simp [hkm]
    · have hxm : x ≠ m := fun hcon => (List.nodup_cons.mp hnd).1 (hcon ▸ hmem)
      simp only [List.map_cons, appendPos, if_neg hxm]
      rw [ih (List.nodup_cons.mp hnd).2 hmem]

theorem foldl_appendPos_eq (ps : List (String × Nat)) :
    ps.foldl (fun d q => appendPos d q.1 q.2) [] =
      (firstOccs (ps.map Prod.fst)).map fun m => (m, obsP ps m) := by
  induction ps using List.reverseRecOn with
  | nil => rfl
  | append_singleton ps q ih =>
    rw [List.foldl_append, List.foldl_cons, List.foldl_nil, ih, List.map_append]
    simp only [List.map_cons, List.map_nil]
    rw [firstOccs_append_singleton]
    by_cases hq : q.1 ∈ firstOccs (ps.map Prod.fst)
    · rw [if_pos hq]
      rw [appendPos_map_of_mem _ _ (firstOccs_nodup _) hq]
      refine (List.map_congr_left ?_).symm
      intro k _
      rw [obsP_append_singleton]
      by_cases hk : k = q.1
      · simp [hk]
      · simp [hk, Ne.symm hk]
    · rw [if_neg hq]
      have hq' : q.1 ∉ ((firstOccs (ps.map Prod.fst)).map
          fun m => (m, obsP ps m)).map Prod.fst := by
        simpa [List.map_map, Function.comp] using hq
      rw [appendPos_of_not_mem _ hq', List.map_append]
      congr 1
      · refine (List.map_congr_left ?_).symm
        intro k hk
        rw [obsP_append_singleton]
        have hk' : q.1 ≠ k := fun hcon => hq (hcon ▸ hk)
        simp [hk']
      · have hobs : obsP ps q.1 = [] := by
          refine obsP_eq_nil_of_not_mem ?_
          intro hcon
          exact hq ((mem_firstOccs _ _).mpr hcon)
        simp [obsP_append_singleton, hobs]

theorem model_positions_eq (stage2_results : List Stage2Result)
    (l2m : List (String × String)) :
    model_positions stage2_results l2m =
      (firstOccs ((collectPairs stage2_results l2m).map Prod.fst)).map
        fun m => (m, observations stage2_results l2m m) := by
  rw [model_positions, foldl_appendPos_eq]
  rfl

theorem insertByRank_perm (x : AggregateEntry) (l : List AggregateEntry) :
    List.Perm (insertByRank x l) (x :: l) := by
  induction l with
  | nil => exact List.Perm.refl _
  | cons y ys ih =>
    rw [insertByRank]
    split
    · exact List.Perm.refl _
    · exact (ih.cons y).trans (List.Perm.swap x y ys)

theorem insertByRank_pairwise {x : AggregateEntry} {l : List AggregateEntry}
    (hl : l.Pairwise fun a b => a.average_rank ≤ b.average_rank) :
    (insertByRank x l).Pairwise fun a b => a.average_rank ≤ b.average_rank := by
  induction l with
  | nil => simp [insertByRank]
  | cons y ys ih =>
    rw [List.pairwise_cons] at hl
    rw [insertByRank]
    split
    next hlt =>
      refine List.pairwise_cons.mpr ⟨?_, List.pairwise_cons.mpr hl⟩
      intro z hz
      rcases List.mem_cons.mp hz with rfl | hmem
      · exact le_of_lt hlt
      · exact le_trans (le_of_lt hlt) (hl.1 z hmem)
    next hnlt =>
      refine List.pairwise_cons.mpr ⟨?_, ih hl.2⟩
      intro z hz
      rcases List.mem_cons.mp ((insertByRank_perm x ys).mem_iff.mp hz) with rfl | hmem
      · exact le_of_not_lt hnlt
      · exact hl.1 z hmem

theorem foldl_insertByRank_perm (l : List AggregateEntry) :
    ∀ acc, List.Perm (l.foldl (fun acc x => insertByRank x acc) acc) (acc ++ l) := by
  induction l with
  | nil => intro acc; simp
  | cons x xs ih =>
    intro acc
    rw [List.foldl_cons]
    have h1 : List.Perm (xs.foldl (fun acc x => insertByRank x acc) (insertByRank x acc))
        (insertByRank x acc ++ xs) := ih _
    have h2 : List.Perm (insertByRank x acc ++ xs) ((x :: acc) ++ xs) :=
      (insertByRank_perm x acc).append_right xs
    have h3 : List.Perm (x :: (acc ++ xs)) (acc ++ x :: xs) := List.perm_middle.symm
    exact (h1.trans h2).trans h3

theorem sortByRank_perm (l : List AggregateEntry) : List.Perm (sortByRank l) l := by
  simpa using foldl_insertByRank_perm l []

theorem foldl_insertByRank_pairwise (l : List AggregateEntry) :
    ∀ acc, (acc.Pairwise fun a b => a.average_rank ≤ b.average_rank) →
      ((l.foldl (fun acc x => insertByRank x acc) acc).Pairwise
        fun a b => a.average_rank ≤ b.average_rank) := by
  induction l with
  | nil => intro acc h; simpa using h
  | cons x xs ih =>
    intro acc h
    rw [List.foldl_cons]
    exact ih _ (insertByRank_pairwise h)

theorem sortByRank_pairwise (l : List AggregateEntry) :
    (sortByRank l).Pairwise fun a b => a.average_rank ≤ b.average_rank :=
  foldl_insertByRank_pairwise l [] (by simp)

theorem filter_insertByRank {x : AggregateEntry} {l : List AggregateEntry}
    (hl : l.Pairwise fun a b => a.average_rank ≤ b.average_rank) (q : ℚ) :
    (insertByRank x l).filter (fun e => e.average_rank = q) =
      if x.average_rank = q then
        l.filter (fun e => e.average_rank = q) ++ [x]
      else l.filter (fun e => e.average_rank = q) := by
  induction l with
  | nil => by_cases hx : x.average_rank = q <;> simp [insertByRank, hx]
  | cons y ys ih =>
    rw [List.pairwise_cons] at hl
    rw [insertByRank]
    split
    next hlt =>
      by_cases hx : x.average_rank = q
      · have hfilter : (y :: ys).filter (fun e => e.average_rank = q) = [] := by
          rw [List.filter_eq_nil]
          intro z hz
          have hyz : y.average_rank ≤ z.average_rank := by
            rcases List.mem_cons.mp hz with rfl | hmem
            · exact le_rfl
            · exact hl.1 z hmem
          have hlt2 : q < z.average_rank := lt_of_lt_of_le (hx ▸ hlt) hyz
          simp only [decide_eq_true_eq]
          intro hcon
          rw [hcon] at hlt2
          exact lt_irrefl _ hlt2
        rw [if_pos hx, hfilter, List.filter_cons, hfilter]
        simp [hx]
      · rw [if_neg hx]
        rw [List.filter_cons]
        simp [hx]
    next hnlt =>
      rw [List.filter_cons, List.filter_cons, ih hl.2]
      by_cases hy : y.average_rank = q <;> by_cases hx : x.average_rank = q <;>
        simp [hy, hx]

theorem foldl_insertByRank_filter (l : List AggregateEntry) (q : ℚ) :
    ∀ acc, (acc.Pairwise fun a b => a.average_rank ≤ b.average_rank) →
      (l.foldl (fun acc x => insertByRank x acc) acc).filter
          (fun e => e.average_rank = q) =
        acc.filter (fun e => e.average_rank = q) ++
          l.filter (fun e => e.average_rank = q) := by
  induction l with
  | nil => intro acc _; simp
  | cons x xs ih =>
    intro acc h
    rw [List.foldl_cons, ih _ (insertByRank_pairwise h), filter_insertByRank h,
      List.filter_cons]
    by_cases hx : x.average_rank = q <;> simp [hx]

theorem sortByRank_filter (l : List AggregateEntry) (q : ℚ) :
    (sortByRank l).filter (fun e => e.average_rank = q) =
      l.filter (fun e => e.average_rank = q) := by
  simpa using foldl_insertByRank_filter l q [] (by simp)

theorem obsP_ne_nil_of_mem_keys {ps : List (String × Nat)} {m : String}
    (h : m ∈ ps.map Prod.fst) : obsP ps m ≠ [] := by
  obtain ⟨q, hq, rfl⟩ := List.mem_map.mp h
  have : q.2 ∈ obsP ps q.1 := by
    rw [obsP]
    exact List.mem_map.mpr ⟨q, List.mem_filter.mpr ⟨hq, by simp⟩, rfl⟩
  exact List.ne_nil_of_mem this

theorem aggregate_eq_sort_entries (stage2_results : List Stage2Result)
    (l2m : List (String × String)) :
    calculate_aggregate_rankings stage2_results l2m =
      sortByRank ((firstOccs ((collectPairs stage2_results l2m).map Prod.fst)).map
        (aggEntryOf stage2_results l2m)) := by
  rw [calculate_aggregate_rankings, model_positions_eq]
  congr 1
  have key : ∀ (l : List String), (∀ m ∈ l, observations stage2_results l2m m ≠ []) →
      ((l.map fun m => (m, observations stage2_results l2m m)).filterMap fun q =>
          if q.2 ≠ [] then
            some (⟨q.1, roundTo2 ((q.2.sum : ℚ) / q.2.length), q.2.length⟩ :
              AggregateEntry)
          else none) =
        l.map (aggEntryOf stage2_results l2m) := by
    intro l hl
    induction l with
    | nil => rfl
    | cons m ms ih =>
      have hm : observations stage2_results l2m m ≠ [] := hl m (by simp)
      simp only [List.map_cons, List.filterMap_cons, if_pos hm]
      rw [ih fun k hk => hl k (by simp [hk])]
      rfl
  refine key _ ?_
  intro m hm
  exact obsP_ne_nil_of_mem_keys ((mem_firstOccs _ _).mp hm)

/-! ### Concrete query outcomes used in witnesses and counterexamples -/

/-- Every query fails. -/
def respNone : QueryOutcome := fun _ => none

/-- Every query succeeds with empty content. -/
def respEmpty : QueryOutcome := fun _ => some ⟨""⟩

/-- Every query succeeds with content `"ok"`. -/
def respOk : QueryOutcome := fun _ => some ⟨"ok"⟩

/-- The first query fails, the rest succeed. -/
def respFirstFails : QueryOutcome := fun i => if i = 0 then none else some ⟨"x"⟩

/-- The first query succeeds, the rest fail. -/
def respSecondFails : QueryOutcome :=
  fun i => if i = 0 then some ⟨"ok"⟩ else none

/-! ### Helper lemmas for filterMap over optional outcomes -/

theorem length_filterMap_resp (l : List (Nat × String)) (resp : QueryOutcome)
    (g : Nat × String → ModelResponse → Stage1Result) :
    (l.filterMap fun p => (resp p.1).map (g p)).length =
      (l.filter fun p => (resp p.1).isSome).length := by
  induction l with
  | nil => rfl
  | cons p rest ih => cases h : resp p.1 <;> simp [h, ih]

theorem map_model_filterMap_resp (l : List (Nat × String)) (resp : QueryOutcome) :
    ((l.filterMap fun p =>
        (resp p.1).map fun r => (⟨p.2, r.content⟩ : Stage1Result)).map
      Stage1Result.model) =
      (l.filter fun p => (resp p.1).isSome).map Prod.snd := by
  induction l with
  | nil => rfl
  | cons p rest ih => cases h : resp p.1 <;> simp [h, ih]

/-! ### Claim C1 -/

/-- C1 (amended): in the batch pipeline (`run_full_council`), any run in
which Stage 1 produces zero Stage1Results terminates with Stage1 = [],
Stage2 = [], a sentinel error Stage3Result (its model field is the sentinel
tag "error"), empty metadata, and Stage 2 and Stage 3 are never invoked —
zero model queries are issued after Stage 1.  The original claim extends
this to streaming mode, which the counterexample refutes: the streaming
generator runs Stage 2 and Stage 3 unconditionally. -/
theorem claim_C1_batch_short_circuit (chairman : String) (models : List String)
    (resp1 resp2 : QueryOutcome) (resp3 : Option ModelResponse)
    (h : stage1_collect_responses models resp1 = []) :
    (run_full_council chairman models resp1 resp2 resp3).stage1 = [] ∧
    (run_full_council chairman models resp1 resp2 resp3).stage2 = [] ∧
    (run_full_council chairman models resp1 resp2 resp3).stage3.model = "error" ∧
    (run_full_council chairman models resp1 resp2 resp3).metadata = none ∧
    (run_full_council chairman models resp1 resp2 resp3).stage2Queries = 0 ∧
    (run_full_council chairman models resp1 resp2 resp3).stage3Queries = 0 := by
  by_cases hm : models = []
  · subst hm
    simp [run_full_council, noModelsSentinel]
  · rw [run_full_council, if_neg hm]
    simp [h, allFailedSentinel]

/-- C1 witness: a one-member council whose only query fails takes the batch
short-circuit path. -/
theorem claim_C1_batch_short_circuit_witness :
    (run_full_council ("chair") ["m"] respNone respNone none).stage2 = [] ∧
    (run_full_council ("chair") ["m"] respNone respNone none).stage2Queries = 0 := by
  have h := claim_C1_batch_short_circuit ("chair") ["m"] respNone respNone none
    (by decide)
  exact ⟨h.2.1, h.2.2.2.2.1⟩

/-- C1 counterexample: in streaming mode (`send_message_stream`), a run in
which Stage 1 produced zero results still issues the Stage-2 fan-out (one
query per member) and the Stage-3 chairman query, contradicting the claim
that Stage 2 and Stage 3 are never invoked in every operating mode. -/
theorem claim_C1_streaming_counterexample :
    stage1_collect_responses ["m"] respNone = [] ∧
    (send_message_stream false ["m"] respNone none).stage2Queries ≠ 0 ∧
    (send_message_stream false ["m"] respNone none).stage3Queries ≠ 0 := by
  decide

/-! ### Claim C3 -/

/-- C3 (amended): for every council-member list with pairwise-distinct
model identifiers, a member whose Stage-1 query errors (settles to null)
contributes no Stage-1 entry, while a member whose query succeeds is always
included — even when the returned content is empty — so Stage-1 entries can
carry empty response text.  The original claim fails in two ways, both in
the counterexample: empty-content successes are included, not excluded; and
without the distinctness restriction the statement is false outright, since
duplicated member ids collapse into one model-keyed dict slot (claim C10) —
["m", "m"] with the first query succeeding and the second failing yields
[], dropping a member whose query succeeded. -/
theorem claim_C3_error_excluded_empty_included (models : List String)
    (resp : QueryOutcome) (h : models.Nodup) :
    (∀ p ∈ models.enum, resp p.1 = none →
      ∀ e ∈ stage1_collect_responses models resp, e.model ≠ p.2) ∧
    (∀ p ∈ models.enum, ∀ r : ModelResponse, resp p.1 = some r →
      (⟨p.2, r.content⟩ : Stage1Result) ∈ stage1_collect_responses models resp) := by
  rw [stage1_eq_enum_filterMap models resp h]
  constructor
  · intro p hp hnone e he hcon
    obtain ⟨p', hp', he'⟩ := List.mem_filterMap.mp he
    cases hr : resp p'.1 with
    | none => rw [hr] at he'; exact absurd he' (by simp)
    | some r =>
      rw [hr] at he'
      have he2 : (⟨p'.2, r.content⟩ : Stage1Result) = e := by simpa using he'
      have hmodel : p'.2 = p.2 := by rw [← he2] at hcon; exact hcon
      have hsnd : models.enum.map Prod.snd = models := List.enum_map_snd models
      have hnd : (models.enum.map Prod.snd).Nodup := by rw [hsnd]; exact h
      have : p' = p := by
        have h1 := List.get_of_mem hp'
        have h2 := List.get_of_mem hp
        exact List.inj_on_of_nodup_map hnd hp' hp hmodel
      rw [this, hnone] at hr
      exact absurd hr (by simp)
  · intro p hp r hr
    exact List.mem_filterMap.mpr ⟨p, hp, by rw [hr]; rfl⟩

/-- C3 witness: a single member that succeeds with empty content is included
with empty response text. -/
theorem claim_C3_witness :
    (⟨"m1", ""⟩ : Stage1Result) ∈ stage1_collect_responses ["m1"] respEmpty :=
  (claim_C3_error_excluded_empty_included ["m1"] respEmpty (by decide)).2
    (0, "m1") (by decide) ⟨""⟩ rfl

/-- C3 counterexample: a member whose query succeeds with empty content is
NOT excluded — the Stage-1 list keeps it, with empty response text,
contradicting the claim that empty-content members are dropped and that no
entry ever has empty response text.  The last two conjuncts force the
distinctness restriction of the amendment: with the duplicated member list
["m", "m"], first query successful and second failing, the second
assignment overwrites the model-keyed dict slot with null and Stage 1
returns [], dropping a member whose query succeeded. -/
theorem claim_C3_counterexample :
    stage1_collect_responses ["m1"] respEmpty = [⟨"m1", ""⟩] ∧
    (stage1_collect_responses ["m1"] respEmpty).length ≠ 0 ∧
    (∃ e ∈ stage1_collect_responses ["m1"] respEmpty, e.response = "") ∧
    respSecondFails 0 ≠ none ∧
    stage1_collect_responses ["m", "m"] respSecondFails = [] := by
  refine ⟨by decide, by decide, ⟨⟨"m1", ""⟩, by decide, rfl⟩, by decide, by decide⟩

/-! ### Claim C4 -/

/-- C4 (amended): the Stage-3 result is never omitted; the fixed
"unable to synthesize" sentinel replaces it exactly when the chairman query
settles to null, while a successful chairman reply — even an empty one — is
passed through verbatim as {model: chairman-id, response: content}.  (The
original claim also routed empty responses to the sentinel; the
counterexample refutes that.) -/
theorem claim_C4_null_gives_sentinel (chairman : String)
    (resp3 : Option ModelResponse) :
    (resp3 = none →
      stage3_synthesize_final chairman resp3 = unableToSynthesize chairman) ∧
    (∀ r : ModelResponse, resp3 = some r →
      stage3_synthesize_final chairman resp3 = ⟨chairman, r.content⟩) := by
  constructor
  · rintro rfl; rfl
  · rintro r rfl; rfl

/-- C4 witness: a null chairman outcome produces the sentinel. -/
theorem claim_C4_witness :
    stage3_synthesize_final ("chair") none = unableToSynthesize ("chair") :=
  (claim_C4_null_gives_sentinel ("chair") none).1 rfl

/-- C4 counterexample: a chairman query that succeeds with an empty response
does NOT produce the sentinel — the Stage-3 result keeps the chairman id with
empty response text, contradicting the claim that an empty response is
replaced by the fixed sentinel. -/
theorem claim_C4_counterexample :
    (stage3_synthesize_final ("chair") (some ⟨""⟩)).response = "" ∧
    stage3_synthesize_final ("chair") (some ⟨""⟩) ≠ unableToSynthesize ("chair") := by
  decide

/-! ### Claim C5 -/

/-- C5 (amended): for a duplicate-free ordered member list in which an
arbitrary subset of member queries fails, the Stage-1 output has exactly one
entry per successful member and lists the successful members in their
relative order within the original member list, independent of completion
order (completion order does not exist in the model: the gathered outcome
list is indexed by submission order).  (The original claim without the
duplicate-free requirement is refuted by the counterexample: duplicated
member ids collapse into one dict key.) -/
theorem claim_C5_order_preserved (models : List String) (resp : QueryOutcome)
    (h : models.Nodup) :
    (stage1_collect_responses models resp).length =
      (models.enum.filter fun p => (resp p.1).isSome).length ∧
    (stage1_collect_responses models resp).map Stage1Result.model =
      (models.enum.filter fun p => (resp p.1).isSome).map Prod.snd := by
  rw [stage1_eq_enum_filterMap models resp h]
  exact ⟨length_filterMap_resp _ _ _, map_model_filterMap_resp _ _⟩

/-- C5 witness: two distinct members, the first of which fails — output is
the single surviving member, in order. -/
theorem claim_C5_witness :
    (stage1_collect_responses ["a", "b"] respFirstFails).length =
      ((["a", "b"].enum.filter fun p => (respFirstFails p.1).isSome).length) ∧
    (stage1_collect_responses ["a", "b"] respFirstFails).map Stage1Result.model =
      (["a", "b"].enum.filter fun p => (respFirstFails p.1).isSome).map Prod.snd :=
  claim_C5_order_preserved ["a", "b"] respFirstFails (by decide)

/-- C5 counterexample: with the duplicated member list ["m", "m"] and every
query succeeding, the Stage-1 output has one entry, not two — its length is
not the number of successful members, refuting the claim as stated for
arbitrary member lists. -/
theorem claim_C5_counterexample :
    (∀ i, i < 2 → respOk i ≠ none) ∧
    (stage1_collect_responses ["m", "m"] respOk).length = 1 ∧
    (stage1_collect_responses ["m", "m"] respOk).length ≠ 2 := by
  decide

/-! ### Claim C6 -/

theorem labelString_injective : Function.Injective labelString := by
  intro a b h
  rw [labelString, labelString] at h
  have hl : responseLit ++ [a] = responseLit ++ [b] := by
    have := congrArg String.data h
    simpa using this
  simpa using hl

/-- C6 (amended): label assignment is a pure function of Stage1Result order.
For at most 26 results (any practical council; beyond 26 the generated
characters leave the A-Z range, as the counterexample shows) the labels are
consecutive uppercase letters starting at 'A' with no gaps, there are
exactly as many labels as Stage1Results, they are pairwise distinct, and —
whenever the Stage-1 model identifiers are distinct, which
`stage1_models_nodup` guarantees for every run — the LabelToModel map is a
bijection from the label keys onto the run's model identifiers. -/
theorem claim_C6_label_assignment (s1 : List Stage1Result)
    (hlen : s1.length ≤ 26) (hmod : (s1.map Stage1Result.model).Nodup) :
    (labels s1.length).length = s1.length ∧
    (∀ c ∈ labels s1.length, 'A' ≤ c ∧ c ≤ 'Z') ∧
    (∀ h : 0 < (labels s1.length).length, (labels s1.length).get ⟨0, h⟩ = 'A') ∧
    (∀ i : Nat, ∀ h : i + 1 < (labels s1.length).length,
      ((labels s1.length).get ⟨i + 1, h⟩).toNat =
        ((labels s1.length).get ⟨i, by omega⟩).toNat + 1) ∧
    (labels s1.length).Nodup ∧
    (label_to_model s1).map Prod.fst = (labels s1.length).map labelString ∧
    (label_to_model s1).map Prod.snd = s1.map Stage1Result.model ∧
    ((label_to_model s1).map Prod.fst).Nodup ∧
    ((label_to_model s1).map Prod.snd).Nodup := by
  have hziplen : (labels s1.length).length = s1.length := labels_length _
  have hfst : ((labels s1.length).zip s1).map Prod.fst = labels s1.length :=
    List.map_fst_zip _ _ (le_of_eq hziplen)
  have hsnd : ((labels s1.length).zip s1).map Prod.snd = s1 :=
    List.map_snd_zip _ _ (le_of_eq hziplen.symm)
  have hkeys : ((((labels s1.length).zip s1).map
      fun p => (labelString p.1, p.2.model)).map Prod.fst) =
      (labels s1.length).map labelString := by
    rw [List.map_map]
    have : (Prod.fst ∘ fun p : Char × Stage1Result =>
        (labelString p.1, p.2.model)) = labelString ∘ Prod.fst := rfl
    rw [this, ← List.map_map, hfst]
  have hkeysnodup : (((labels s1.length).zip s1).map
      fun p => (labelString p.1, p.2.model)).map Prod.fst |>.Nodup := by
    rw [hkeys]
    exact (labels_nodup _ hlen).map labelString_injective
  have hbuild : label_to_model s1 = ((labels s1.length).zip s1).map
      fun p => (labelString p.1, p.2.model) := by
    rw [label_to_model]
    exact buildDict_of_nodup _ hkeysnodup
  have hvals : (label_to_model s1).map Prod.snd = s1.map Stage1Result.model := by
    rw [hbuild, List.map_map]
    have : (Prod.snd ∘ fun p : Char × Stage1Result =>
        (labelString p.1, p.2.model)) = Stage1Result.model ∘ Prod.snd := rfl
    rw [this, ← List.map_map, hsnd]
  refine ⟨hziplen, labels_upper _ hlen, ?_, ?_, labels_nodup _ hlen,
    by rw [hbuild]; exact hkeys, hvals, by rw [hbuild]; exact hkeysnodup,
    by rw [hvals]; exact hmod⟩
  · intro h
    rw [labels_get]
  · intro i h
    rw [labels_get, labels_get]
    rw [labels_length] at h
    have h1 : (Char.ofNat (65 + (i + 1))).toNat = 65 + (i + 1) :=
      char_toNat_ofNat_lt _ (by omega)
    have h2 : (Char.ofNat (65 + i)).toNat = 65 + i :=
      char_toNat_ofNat_lt _ (by omega)
    rw [h1, h2]
    omega

/-- C6 witness: a two-result run gets labels ['A', 'B'] and a two-entry
bijective label map. -/
theorem claim_C6_witness :
    (labels ([⟨"m1", "r1"⟩, ⟨"m2", "r2"⟩] : List Stage1Result).length).length =
      ([⟨"m1", "r1"⟩, ⟨"m2", "r2"⟩] : List Stage1Result).length ∧
    (∀ c ∈ labels ([⟨"m1", "r1"⟩, ⟨"m2", "r2"⟩] : List Stage1Result).length,
      'A' ≤ c ∧ c ≤ 'Z') ∧
    (∀ h : 0 < (labels ([⟨"m1", "r1"⟩, ⟨"m2", "r2"⟩] :
        List Stage1Result).length).length,
      (labels ([⟨"m1", "r1"⟩, ⟨"m2", "r2"⟩] :
        List Stage1Result).length).get ⟨0, h⟩ = 'A') ∧
    (∀ i : Nat, ∀ h : i + 1 < (labels ([⟨"m1", "r1"⟩, ⟨"m2", "r2"⟩] :
        List Stage1Result).length).length,
      ((labels ([⟨"m1", "r1"⟩, ⟨"m2", "r2"⟩] :
          List Stage1Result).length).get ⟨i + 1, h⟩).toNat =
        ((labels ([⟨"m1", "r1"⟩, ⟨"m2", "r2"⟩] :
          List Stage1Result).length).get ⟨i, by omega⟩).toNat + 1) ∧
    (labels ([⟨"m1", "r1"⟩, ⟨"m2", "r2"⟩] : List Stage1Result).length).Nodup ∧
    (label_to_model [⟨"m1", "r1"⟩, ⟨"m2", "r2"⟩]).map Prod.fst =
      (labels ([⟨"m1", "r1"⟩, ⟨"m2", "r2"⟩] :
        List Stage1Result).length).map labelString ∧
    (label_to_model [⟨"m1", "r1"⟩, ⟨"m2", "r2"⟩]).map Prod.snd =
      ([⟨"m1", "r1"⟩, ⟨"m2", "r2"⟩] : List Stage1Result).map Stage1Result.model ∧
    ((label_to_model [⟨"m1", "r1"⟩, ⟨"m2", "r2"⟩]).map Prod.fst).Nodup ∧
    ((label_to_model [⟨"m1", "r1"⟩, ⟨"m2", "r2"⟩]).map Prod.snd).Nodup :=
  claim_C6_label_assignment [⟨"m1", "r1"⟩, ⟨"m2", "r2"⟩] (by decide) (by decide)

/-- C6 counterexample: with 27 Stage1Results the 27th generated label is
`Char.ofNat 91 = '['`, which is not an uppercase letter — so the claim that
labels are always consecutive uppercase letters fails for arbitrary
Stage1Result lists. -/
theorem claim_C6_counterexample :
    (List.replicate 27 (⟨"m", ""⟩ : Stage1Result)).length = 27 ∧
    ¬ (∀ c ∈ labels (List.replicate 27 (⟨"m", ""⟩ : Stage1Result)).length,
        'A' ≤ c ∧ c ≤ 'Z') := by
  decide

/-! ### Claim C9 -/

/-- Temporal precedence inside one emitted event list: whenever both events
occur, every occurrence of `a` is indexed before `b`.  (Each event type is
emitted at most once per run.) -/
def eventBefore (evs : List EventType) (a b : EventType) : Prop :=
  a ∈ evs → b ∈ evs → evs.indexOf a < evs.indexOf b

instance eventBeforeDecidable (evs : List EventType) (a b : EventType) :
    Decidable (eventBefore evs a b) := by
  unfold eventBefore
  infer_instance

/-- C9: in streaming mode every run's emitted event sequence respects the
fixed order stage1_start < stage1_complete < stage2_start < stage2_complete
< stage3_start < stage3_complete < complete, and when the title side task
was started and the run completes, title_complete appears somewhere after
stage1_start and before complete. -/
theorem claim_C9_stream_event_order (firstMessage : Bool) (models : List String)
    (resp1 : QueryOutcome) (failAt : Option Nat) :
    (eventBefore (send_message_stream firstMessage models resp1 failAt).events
        .stage1_start .stage1_complete ∧
      eventBefore (send_message_stream firstMessage models resp1 failAt).events
        .stage1_complete .stage2_start ∧
      eventBefore (send_message_stream firstMessage models resp1 failAt).events
        .stage2_start .stage2_complete ∧
      eventBefore (send_message_stream firstMessage models resp1 failAt).events
        .stage2_complete .stage3_start ∧
      eventBefore (send_message_stream firstMessage models resp1 failAt).events
        .stage3_start .stage3_complete ∧
      eventBefore (send_message_stream firstMessage models resp1 failAt).events
        .stage3_complete .complete) ∧
    (failAt = none → firstMessage = true →
      EventType.title_complete ∈
        (send_message_stream firstMessage models resp1 failAt).events ∧
      eventBefore (send_message_stream firstMessage models resp1 failAt).events
        .stage1_start .title_complete ∧
      eventBefore (send_message_stream firstMessage models resp1 failAt).events
        .title_complete .complete) := by
  rcases failAt with _ | k
  · cases firstMessage <;>
      · simp only [send_message_stream]
        exact ⟨by decide, by decide⟩
  · rcases k with _ | _ | _ | _ | k <;>
      · simp only [send_message_stream]
        exact ⟨by decide, by intro hcon _; exact absurd hcon (by simp)⟩

/-- C9 witness: a completed first-message run emits title_complete between
stage1_start and complete. -/
theorem claim_C9_witness :
    EventType.title_complete ∈
      (send_message_stream true [] respNone none).events ∧
    eventBefore (send_message_stream true [] respNone none).events
      .stage1_start .title_complete ∧
    eventBefore (send_message_stream true [] respNone none).events
      .title_complete .complete :=
  (claim_C9_stream_event_order true [] respNone none).2 rfl rfl

/-! ### Claim C10 -/

/-- C10: the parallel query result is keyed by model identifier, so Stage 1
and Stage 2 produce at most one entry per distinct model (their model
columns are duplicate-free for every member list), the stored outcome for a
model is the one of its last occurrence in the member list (a later
duplicate overwrites an earlier one), and — concretely — a duplicated
member list with two successful queries yields a single entry carrying the
second response, so the stage output can be shorter than the number of
successful member queries. -/
theorem claim_C10_duplicate_members (models : List String)
    (resp1 resp2 : QueryOutcome) (s1 : List Stage1Result) :
    ((stage1_collect_responses models resp1).map Stage1Result.model).Nodup ∧
    ((stage2_collect_rankings s1 models resp2).1.map Stage2Result.model).Nodup ∧
    (∀ m : String,
      listLookup (query_models_parallel_with_messages models resp1) m =
        (models.enum.reverse.find? fun p => p.2 = m).map fun p => resp1 p.1) ∧
    stage1_collect_responses ["m", "m"]
      (fun i => some ⟨if i = 0 then ("first") else ("second")⟩) =
      [⟨"m", "second"⟩] := by
  refine ⟨stage1_models_nodup models resp1, stage2_models_nodup s1 models resp2,
    ?_, by decide⟩
  intro m
  rw [query_models_parallel_with_messages, listLookup_buildDict,
    ← List.map_reverse, List.find?_map]
  have hpred : ((fun p : String × Option ModelResponse => decide (p.1 = m)) ∘
      fun p : Nat × String => (p.2, resp1 p.1)) =
      fun p : Nat × String => decide (p.2 = m) := rfl
  rw [hpred, Option.map_map]
  rfl

/-! ### Claim C2 -/

/-- Everything after the *first* occurrence of `m` (`none` when `m` does not
occur).  This follows the claim's words for the ranking section; the code's
`split(...)[1]` disagrees when the marker occurs twice. -/
def afterFirstOcc (m : List Char) : List Char → Option (List Char)
  | [] => if m.isEmpty then some [] else none
  | c :: rest =>
    if m.isPrefixOf (c :: rest) then some ((c :: rest).drop m.length)
    else afterFirstOcc m rest

/-- The numbered-then-bare scan the code applies to its ranking section
(council.py lines 279-288). -/
def rankSectionScan (sec : List Char) : List String :=
  if findallNumbered sec ≠ [] then (findallNumbered sec).map labelString
  else (findallResponse sec).map labelString

/-- Rank parsing as the claim words it: the section is everything after the
FIRST occurrence of the marker, then the same numbered/bare scans. -/
def parseSpecAfterFirst (text : String) : List String :=
  if occursIn markerChars text.data then
    rankSectionScan ((afterFirstOcc markerChars text.data).getD [])
  else (findallResponse text.data).map labelString

/-- A ranking text in which the marker occurs twice. -/
def c2TwoMarkerText : String :=
  "FINAL RANKING:\n1. Response A\nFINAL RANKING:\n2. Response B"

/-- C2 counterexample: on a text with two marker occurrences, the claim's
reading (scan everything after the first occurrence) yields
["Response A", "Response B"], but the code's `split`-based section is only
the text between the two occurrences, so it returns ["Response A"]: text
after a second occurrence of the marker is NOT part of the scanned
section. -/
theorem claim_C2_counterexample :
    parseSpecAfterFirst c2TwoMarkerText = ["Response A", "Response B"] ∧
    parse_ranking_from_text c2TwoMarkerText = ["Response A"] ∧
    parse_ranking_from_text c2TwoMarkerText ≠ parseSpecAfterFirst c2TwoMarkerText := by
  decide

/-- The prefix of `cs` strictly before the first occurrence of `m` — all of
`cs` when `m` does not occur in it.  Applied to the remainder delivered by
`afterFirstOcc`, this is the segment strictly between the first and second
marker occurrences (the whole remainder when there is no second
occurrence). -/
def takeUntilOcc (m : List Char) : List Char → List Char
  | [] => []
  | c :: rest =>
    if m.isPrefixOf (c :: rest) then []
    else c :: takeUntilOcc m rest

theorem takeUntilOcc_of_not_occursIn {m : List Char} :
    ∀ {cs : List Char}, occursIn m cs = false → takeUntilOcc m cs = cs := by
  intro cs
  induction cs with
  | nil => intro _; rfl
  | cons c rest ih =>
    intro h
    have hpre : m.isPrefixOf (c :: rest) = false :=
      not_isPrefixOf_of_occursIn_false h
    simp only [takeUntilOcc]
    rw [if_neg (by simp [hpre]), ih (occursIn_tail_false h)]

theorem splitAux_first_part (m : List Char) (hm : m ≠ []) :
    ∀ (cs acc : List Char) (fuel : Nat), cs.length ≤ fuel →
      occursIn m cs = true →
      splitAux m fuel cs acc =
        (acc.reverse ++ takeUntilOcc m cs) ::
          pySplit m ((afterFirstOcc m cs).getD []) := by
  intro cs
  induction cs with
  | nil =>
    intro acc fuel _ hocc
    rw [occursIn_nil] at hocc
    cases m with
    | nil => exact absurd rfl hm
    | cons _ _ => exact absurd hocc (by simp)
  | cons c rest ih =>
    intro acc fuel hf hocc
    have hm1 : 1 ≤ m.length := by
      cases m with
      | nil => exact absurd rfl hm
      | cons _ _ => simp
    obtain ⟨g, rfl⟩ : ∃ g, fuel = g + 1 := by
      refine ⟨fuel - 1, ?_⟩
      simp only [List.length_cons] at hf
      omega
    rw [splitAux]
    by_cases hpre : m.isPrefixOf (c :: rest) = true
    · rw [if_pos hpre]
      have ht : takeUntilOcc m (c :: rest) = [] := by
        simp only [takeUntilOcc]
        rw [if_pos hpre]
      have ha : afterFirstOcc m (c :: rest) =
          some ((c :: rest).drop m.length) := by
        simp only [afterFirstOcc]
        rw [if_pos hpre]
      rw [ht, ha, List.append_nil, Option.getD_some]
      congr 1
      rw [pySplit]
      apply splitAux_congr _ hm
      · simp only [List.length_drop, List.length_cons] at hf ⊢
        omega
      · exact le_rfl
    · rw [if_neg hpre]
      have hpreb : m.isPrefixOf (c :: rest) = false := Bool.eq_false_iff.mpr hpre
      have hocc2 : occursIn m rest = true := by
        rw [occursIn_cons, hpreb] at hocc
        simpa using hocc
      rw [ih (c :: acc) g (by simp only [List.length_cons] at hf; omega) hocc2]
      have ht : takeUntilOcc m (c :: rest) = c :: takeUntilOcc m rest := by
        simp only [takeUntilOcc]
        rw [if_neg hpre]
      have ha : afterFirstOcc m (c :: rest) = afterFirstOcc m rest := by
        simp only [afterFirstOcc]
        rw [if_neg hpre]
      rw [ht, ha, List.reverse_cons, List.append_assoc]
      rfl

theorem splitAux_head (m : List Char) :
    ∀ (cs acc : List Char) (fuel : Nat), cs.length ≤ fuel →
      ∃ t, splitAux m fuel cs acc = (acc.reverse ++ takeUntilOcc m cs) :: t := by
  intro cs
  induction cs with
  | nil =>
    intro acc fuel _
    refine ⟨[], ?_⟩
    cases fuel <;> simp [splitAux, takeUntilOcc]
  | cons c rest ih =>
    intro acc fuel hf
    obtain ⟨g, rfl⟩ : ∃ g, fuel = g + 1 := by
      refine ⟨fuel - 1, ?_⟩
      simp only [List.length_cons] at hf
      omega
    rw [splitAux]
    by_cases hpre : m.isPrefixOf (c :: rest) = true
    · refine ⟨splitAux m g ((c :: rest).drop m.length) [], ?_⟩
      rw [if_pos hpre]
      have ht : takeUntilOcc m (c :: rest) = [] := by
        simp only [takeUntilOcc]
        rw [if_pos hpre]
      rw [ht, List.append_nil]
    · obtain ⟨t, htl⟩ := ih (c :: acc) g
        (by simp only [List.length_cons] at hf; omega)
      refine ⟨t, ?_⟩
      rw [if_neg hpre, htl]
      have ht : takeUntilOcc m (c :: rest) = c :: takeUntilOcc m rest := by
        simp only [takeUntilOcc]
        rw [if_neg hpre]
      rw [ht, List.reverse_cons, List.append_assoc]
      rfl

theorem pySplit_first_two (m : List Char) (hm : m ≠ []) (cs : List Char)
    (hocc : occursIn m cs = true) :
    (pySplit m cs).length ≥ 2 ∧
    (pySplit m cs).getD 1 [] =
      takeUntilOcc m ((afterFirstOcc m cs).getD []) := by
  have h1 : pySplit m cs =
      takeUntilOcc m cs :: pySplit m ((afterFirstOcc m cs).getD []) := by
    have h := splitAux_first_part m hm cs [] cs.length le_rfl hocc
    rw [pySplit]
    simpa using h
  obtain ⟨t, ht⟩ := splitAux_head m ((afterFirstOcc m cs).getD []) []
    ((afterFirstOcc m cs).getD []).length le_rfl
  have h2 : pySplit m ((afterFirstOcc m cs).getD []) =
      takeUntilOcc m ((afterFirstOcc m cs).getD []) :: t := by
    rw [pySplit]
    simpa using ht
  refine ⟨?_, ?_⟩
  · rw [h1, h2]
    simp
  · rw [h1, h2]
    rfl

/-- C2 (amended): for EVERY text containing the marker, the ranking section
the code scans is the segment strictly between the first occurrence of the
marker and its next occurrence — which is everything after the first
occurrence when the marker occurs exactly once, as the second conjunct
certifies (on a remainder free of the marker the cut returns the whole
remainder) — and the numbered-line matches of that segment, falling back to
its bare `Response X` matches, are returned in textual order.  Text after a
second occurrence of the marker is therefore never scanned. -/
theorem claim_C2_section_between_markers :
    (∀ text : String, occursIn markerChars text.data = true →
      parse_ranking_from_text text =
        rankSectionScan (takeUntilOcc markerChars
          ((afterFirstOcc markerChars text.data).getD []))) ∧
    (∀ cs : List Char, occursIn markerChars cs = false →
      takeUntilOcc markerChars cs = cs) := by
  constructor
  · intro text h
    obtain ⟨hlen, hsec⟩ :=
      pySplit_first_two markerChars (by decide) text.data h
    rw [parse_ranking_from_text, h, if_pos rfl, if_pos hlen, hsec,
      rankSectionScan]
  · intro cs h
    exact takeUntilOcc_of_not_occursIn h

/-- C2 witness: applied to the concrete two-marker text, the scanned
section is the segment between the two occurrences; text after the second
occurrence is ignored. -/
theorem claim_C2_section_witness :
    parse_ranking_from_text c2TwoMarkerText =
      rankSectionScan (takeUntilOcc markerChars
        ((afterFirstOcc markerChars c2TwoMarkerText.data).getD [])) :=
  claim_C2_section_between_markers.1 c2TwoMarkerText (by decide)

/-! ### Claim C8 -/

/-- A ranking text mentioning the same label twice. -/
def c8DupText : String := "FINAL RANKING:\n1. Response A\n2. Response A"

/-- C8: rank-text parsing is total — it is a function defined on every
string (never raises), it returns the empty sequence whenever no
`Response <letter>` token occurs anywhere in the text, and it performs no
deduplication: a label appearing twice in the parsed sequence contributes
two rank observations to the aggregator, as the duplicate-label text shows
(the model keyed by "Response A" receives rankings_count 2 and mean
(1+2)/2 = 1.5). -/
theorem claim_C8_parse_total_no_dedup :
    (∀ text : String, noResponseToken text.data →
      parse_ranking_from_text text = []) ∧
    parse_ranking_from_text c8DupText = ["Response A", "Response A"] ∧
    calculate_aggregate_rankings
        [⟨"ranker", c8DupText, parse_ranking_from_text c8DupText⟩]
        [("Response A", "m1")] =
      [⟨"m1", 3 / 2, 2⟩] := by
  refine ⟨fun text H => parse_of_noToken text H, by decide, ?_⟩
  rw [aggregate_eq_sort_entries]
  have hpairs : collectPairs
      [⟨"ranker", c8DupText, parse_ranking_from_text c8DupText⟩]
      [("Response A", "m1")] = [("m1", 1), ("m1", 2)] := by decide
  have hobs : observations
      [⟨"ranker", c8DupText, parse_ranking_from_text c8DupText⟩]
      [("Response A", "m1")] "m1" = [1, 2] := by decide
  have hfo : firstOccs (([("m1", 1), ("m1", 2)] :
      List (String × Nat)).map Prod.fst) = ["m1"] := by decide
  rw [hpairs, hfo]
  have hentry : aggEntryOf
      [⟨"ranker", c8DupText, parse_ranking_from_text c8DupText⟩]
      [("Response A", "m1")] "m1" = ⟨"m1", 3 / 2, 2⟩ := by
    rw [aggEntryOf, hobs]
    have hval : roundTo2 ((([1, 2] : List Nat).sum : ℚ) /
        (([1, 2] : List Nat).length : ℚ)) = 3 / 2 := by
      rw [roundTo2]
      norm_num [round_eq]
    rw [hval]
    rfl
  simp only [List.map_cons, List.map_nil, hentry]
  rfl

/-- C8 witness: a text with no `Response <letter>` token parses to the empty
sequence. -/
theorem claim_C8_witness :
    parse_ranking_from_text ("the models were all good, no winner") = [] :=
  claim_C8_parse_total_no_dedup.1 ("the models were all good, no winner")
    (by decide)

/-! ### Claim C7 -/

theorem mem_keys_of_obsP_ne_nil {ps : List (String × Nat)} {m : String}
    (h : obsP ps m ≠ []) : m ∈ ps.map Prod.fst := by
  by_contra hcon
  exact h (obsP_eq_nil_of_not_mem hcon)

/-- The two ranking texts of the spec's aggregation example. -/
def c7TextAB : String := "FINAL RANKING:\n1. Response A\n2. Response B"

/-- See `c7TextAB`; the reversed ranking. -/
def c7TextBA : String := "FINAL RANKING:\n1. Response B\n2. Response A"

/-- The example's two Stage-2 results, with parsed sequences
["Response A","Response B"] and ["Response B","Response A"]. -/
def c7Stage2 : List Stage2Result :=
  [⟨"r1", c7TextAB, parse_ranking_from_text c7TextAB⟩,
   ⟨"r2", c7TextBA, parse_ranking_from_text c7TextBA⟩]

/-- The example's label-to-model map {A: "m1", B: "m2"}. -/
def c7L2M : List (String × String) :=
  [("Response A", "m1"), ("Response B", "m2")]

/-- C7: rank aggregation outputs, for exactly the models with at least one
observed 1-based rank position, an entry carrying the mean of the observed
positions rounded to 2 decimals and the observation count; the output is
sorted ascending by mean, and ties keep the original encounter order (the
filtered output at any mean value equals the filtered pre-sort encounter
list).  Models with zero observations are absent.  In particular, for the
spec's example — {A: "m1", B: "m2"} with parsed sequences [A, B] and
[B, A] — both models get mean 1.5 and count 2, in stable order m1 before
m2. -/
theorem claim_C7_aggregate (s2 : List Stage2Result)
    (l2m : List (String × String)) :
    ((calculate_aggregate_rankings s2 l2m).Pairwise
      fun a b => a.average_rank ≤ b.average_rank) ∧
    (∀ q : ℚ, (calculate_aggregate_rankings s2 l2m).filter
        (fun e => e.average_rank = q) =
      ((firstOccs ((collectPairs s2 l2m).map Prod.fst)).map
        (aggEntryOf s2 l2m)).filter (fun e => e.average_rank = q)) ∧
    (∀ e ∈ calculate_aggregate_rankings s2 l2m,
      observations s2 l2m e.model ≠ [] ∧
      e.average_rank = roundTo2 (((observations s2 l2m e.model).sum : ℚ) /
        ((observations s2 l2m e.model).length : ℚ)) ∧
      e.rankings_count = (observations s2 l2m e.model).length) ∧
    (∀ m : String, observations s2 l2m m = [] →
      ∀ e ∈ calculate_aggregate_rankings s2 l2m, e.model ≠ m) ∧
    (∀ m : String, observations s2 l2m m ≠ [] →
      ∃ e ∈ calculate_aggregate_rankings s2 l2m, e.model = m) ∧
    calculate_aggregate_rankings c7Stage2 c7L2M =
      [⟨"m1", 3 / 2, 2⟩, ⟨"m2", 3 / 2, 2⟩] := by
  refine ⟨?_, ?_, ?_, ?_, ?_, ?_⟩
  · rw [aggregate_eq_sort_entries]
    exact sortByRank_pairwise _
  · intro q
    rw [aggregate_eq_sort_entries, sortByRank_filter]
  · intro e he
    rw [aggregate_eq_sort_entries] at he
    obtain ⟨m, hm, rfl⟩ := List.mem_map.mp ((sortByRank_perm _).mem_iff.mp he)
    have hobs : observations s2 l2m m ≠ [] :=
      obsP_ne_nil_of_mem_keys ((mem_firstOccs _ _).mp hm)
    exact ⟨hobs, rfl, rfl⟩
  · intro m hm e he hcon
    rw [aggregate_eq_sort_entries] at he
    obtain ⟨m', hm', rfl⟩ := List.mem_map.mp ((sortByRank_perm _).mem_iff.mp he)
    have hmm : m' = m := hcon
    rw [hmm] at hm'
    exact obsP_ne_nil_of_mem_keys ((mem_firstOccs _ _).mp hm') hm
  · intro m hm
    have hfo : m ∈ firstOccs ((collectPairs s2 l2m).map Prod.fst) :=
      (mem_firstOccs _ _).mpr (mem_keys_of_obsP_ne_nil hm)
    refine ⟨aggEntryOf s2 l2m m, ?_, rfl⟩
    rw [aggregate_eq_sort_entries]
    exact (sortByRank_perm _).mem_iff.mpr (List.mem_map.mpr ⟨m, hfo, rfl⟩)
  · rw [aggregate_eq_sort_entries]
    have hpairs : collectPairs c7Stage2 c7L2M =
        [("m1", 1), ("m2", 2), ("m2", 1), ("m1", 2)] := by decide
    have hfo : firstOccs (([("m1", 1), ("m2", 2), ("m2", 1), ("m1", 2)] :
        List (String × Nat)).map Prod.fst) = ["m1", "m2"] := by decide
    have hobs1 : observations c7Stage2 c7L2M ("m1") = [1, 2] := by decide
    have hobs2 : observations c7Stage2 c7L2M ("m2") = [2, 1] := by decide
    rw [hpairs, hfo]
    have he1 : aggEntryOf c7Stage2 c7L2M ("m1") = ⟨"m1", 3 / 2, 2⟩ := by
      rw [aggEntryOf, hobs1]
      have hval : roundTo2 ((([1, 2] : List Nat).sum : ℚ) /
          (([1, 2] : List Nat).length : ℚ)) = 3 / 2 := by
        rw [roundTo2]
        norm_num [round_eq]
      rw [hval]
      rfl
    have he2 : aggEntryOf c7Stage2 c7L2M ("m2") = ⟨"m2", 3 / 2, 2⟩ := by
      rw [aggEntryOf, hobs2]
      have hval : roundTo2 ((([2, 1] : List Nat).sum : ℚ) /
          (([2, 1] : List Nat).length : ℚ)) = 3 / 2 := by
        rw [roundTo2]
        norm_num [round_eq]
      rw [hval]
      rfl
    simp only [List.map_cons, List.map_nil, he1, he2]
    rw [sortByRank]
    simp only [List.foldl_cons, List.foldl_nil]
    have h1 : insertByRank (⟨"m1", 3 / 2, 2⟩ : AggregateEntry) [] =
        [⟨"m1", 3 / 2, 2⟩] := rfl
    rw [h1]
    have hnlt : ¬((⟨"m2", 3 / 2, 2⟩ : AggregateEntry).average_rank <
        (⟨"m1", 3 / 2, 2⟩ : AggregateEntry).average_rank) := by norm_num
    rw [insertByRank, if_neg hnlt]
    rfl

/-- C7 witness: in the spec's example, model "m1" has observations, so it
appears in the aggregate output. -/
theorem claim_C7_witness :
    ∃ e ∈ calculate_aggregate_rankings c7Stage2 c7L2M, e.model = "m1" :=
  (claim_C7_aggregate c7Stage2 c7L2M).2.2.2.2.1 ("m1") (by decide)

end LLMCouncil
